import Mathlib

/-!
Verification of the gwatch execution-and-differencing engine.

The definitions below are a shallow embedding of the core of main.go:
the split functions scanRunes, scanWords and scanLines composed with the
bufio.Scanner driver into whole-string tokenizers, the positional diff
loop of highlightContent, the cache update, the tick loop of the
scheduler, the keyboard exit paths, and the interval clamp of main.
The display collaborator tview.Escape is opaque to the core and is
modelled as an abstract function argument.
-/

namespace Gwatch

/-- Highlight modes of the application, embedding the constant block
HighlightModeOff, HighlightModeChar, HighlightModeWord, HighlightModeLine
of main.go. -/
inductive HighlightMode
  | off
  | char
  | word
  | line
  deriving DecidableEq

/-- Unicode white-space classification used by scanWords through Go's
unicode.IsSpace: the Latin-1 white-space code points and the code points
carrying the White_Space property. -/
def goIsSpace (c : Char) : Bool :=
  c.toNat = 9 || c.toNat = 10 || c.toNat = 11 || c.toNat = 12 ||
  c.toNat = 13 || c.toNat = 32 || c.toNat = 0x85 || c.toNat = 0xA0 ||
  c.toNat = 0x1680 || (0x2000 ≤ c.toNat && c.toNat ≤ 0x200A) ||
  c.toNat = 0x2028 || c.toNat = 0x2029 || c.toNat = 0x202F ||
  c.toNat = 0x205F || c.toNat = 0x3000

/-- The scanning loop shared by scanWords and scanLines in main.go: b is
the class of the first rune of the current token (isDelim in the source),
acc holds the runes of the current token already consumed (in reverse);
the loop advances while the class of the next rune equals b and cuts the
token at the first rune whose class differs, starting a fresh token
there. At end of input the remaining runes form the final token (the
atEOF branch of the split functions). -/
def tokenizeByGo (cls : Char → Bool) (b : Bool) (acc : List Char) :
    List Char → List (List Char)
  | [] => [acc.reverse]
  | c :: rest =>
    if cls c == b then tokenizeByGo cls b (c :: acc) rest
    else acc.reverse :: tokenizeByGo cls (cls c) [c] rest

/-- Token stream a bufio.Scanner produces from a class-based split
function: empty input yields no token, otherwise the scan loop starts
with the class of the first rune. -/
def tokenizeBy (cls : Char → Bool) : List Char → List (List Char)
  | [] => []
  | c :: rest => tokenizeByGo cls (cls c) [c] rest

/-- Char-mode tokens: scanRunes in main.go delegates to bufio.ScanRunes,
so the scanner yields one token per code point, except that the
single-character token consisting of a closing square bracket is
rewritten to the two-character escape used by the display markup. -/
def scanRunes (s : String) : List String :=
  s.data.map (fun c => if c = ']' then "[]" else String.singleton c)

/-- Word-mode tokens: bufio.Scanner driven by the scanWords split
function of main.go, which cuts at the first rune whose unicode.IsSpace
class differs from that of the first rune of the token. -/
def scanWords (s : String) : List String :=
  (tokenizeBy goIsSpace s.data).map List.asString

/-- Line-mode tokens: bufio.Scanner driven by the scanLines split
function of main.go, which cuts at the first rune whose class differs
from that of the first rune, the class being whether the rune is a
newline. -/
def scanLines (s : String) : List String :=
  (tokenizeBy (fun c => c == '\n') s.data).map List.asString

/-- The split function highlightContent selects for each highlight mode,
composed with the scanner into a whole-string tokenizer. In Off mode no
split function is selected because the diff is bypassed. -/
def tokenize : HighlightMode → String → List String
  | .off, _ => []
  | .char, s => scanRunes s
  | .word, s => scanWords s
  | .line, s => scanLines s

/-- The scanner loop of highlightContent in main.go: walk the current
tokens, consuming one previous token per step; a token equal to the
previous token at the same position is copied escaped, any other token
(including every token left once the previous stream is exhausted) is
wrapped in the style tag pair. esc stands for the collaborator
tview.Escape, opaque to the core. -/
def renderDiff (style : String) (esc : String → String) :
    List String → List String → String
  | [], _ => ""
  | a :: as, [] =>
    "[" ++ style ++ "]" ++ esc a ++ "[-:-:-]" ++ renderDiff style esc as []
  | a :: as, b :: bs =>
    (if a = b then esc a else "[" ++ style ++ "]" ++ esc a ++ "[-:-:-]") ++
      renderDiff style esc as bs

/-- The change decision of the same loop, one Bool per current token:
a current token is unchanged (false) exactly when the previous scanner
still yields a token at the same position and it is textually equal. -/
def diffMarks : List String → List String → List Bool
  | [], _ => []
  | _ :: as, [] => true :: diffMarks as []
  | a :: as, b :: bs => (a != b) :: diffMarks as bs

/-- The function highlightContent of main.go: given the active mode, the
configured style, the escape collaborator, the cache and the current
text, it returns the rendered text together with the new cache. The
source mutates a.cache in place; here the new cache is returned as the
second component. Both exits of the source function set the cache to the
current text. -/
def highlightContent (mode : HighlightMode) (style : String)
    (esc : String → String) (cache text : String) : String × String :=
  if mode = .off ∨ cache = "" then (esc text, text)
  else (renderDiff style esc (tokenize mode text) (tokenize mode cache), text)

/-- The mutable state the tick loop of main.go reads and writes through
exec: the highlighter cache, the datetime text of the header, and the
exit code of the last run. -/
structure LoopState where
  cache : String
  datetime : String
  errCode : Int
  deriving DecidableEq

/-- The body of the endless for loop of tick in main.go, iterated n
times. Each iteration first checks the errexit break condition, then
receives a value from the ticker channel (consuming the tick
unconditionally), and calls exec (modelled by the abstract runner, which
covers the updates exec performs on cache, datetime and errCode) only
when SuspendMode is false. -/
def tickLoop (errExit suspend : Bool) (runner : LoopState → LoopState) :
    Nat → LoopState → LoopState
  | 0, s => s
  | n + 1, s =>
    if s.errCode ≠ 0 ∧ errExit then s
    else tickLoop errExit suspend runner n (if suspend then s else runner s)

/-- Outcome of one command execution as classified by exec in main.go. -/
inductive ExecOutcome
  | success
  | exitStatus (code : Int)
  | launchFailure
  deriving DecidableEq

/-- Return value of exec in main.go: 0 when the command ran and exited
cleanly, the wait status of an exec.ExitError, and 1 for any other error
(the launch-failure path, which also prints the error text). -/
def execCode : ExecOutcome → Int
  | .success => 0
  | .exitStatus code => code
  | .launchFailure => 1

/-- Which primitive owns keyboard focus: the content view (normal
operation), the help footer opened by the question-mark key, or the exit
footer that tick installs and focuses after the errexit break. -/
inductive Focus
  | content
  | helpFooter
  | exitFooter
  deriving DecidableEq

/-- Process termination triggered by one keypress, from the
SetInputCapture closures of main.go: on the content view the rune q
calls os.Exit(0); the help footer capture merely hides the message and
moves focus back; the exit footer capture calls os.Exit(errCode) for
every key. none means the keypress does not terminate the process. -/
def keyExitCode : Focus → Int → Char → Option Int
  | .content, _, key => if key = 'q' then some 0 else none
  | .helpFooter, _, _ => none
  | .exitFooter, errCode, _ => some errCode

/-- The MinInterval constant of main.go, 0.1 seconds, modelled in ℚ. -/
def MinInterval : ℚ := 1 / 10

/-- The interval clamp performed by main before the App is built: a
configured interval below MinInterval is replaced by MinInterval. -/
def clampInterval (interval : ℚ) : ℚ :=
  if interval < MinInterval then MinInterval else interval

/-! Helper lemmas on strings and the tokenizers. -/

/-- Appending the empty string on the right is the identity. -/
theorem string_append_empty (s : String) : s ++ "" = s := by
  cases s with
  | mk data =>
    show String.mk (data ++ []) = String.mk data
    rw [List.append_nil]

/-- String.join distributes over cons. -/
theorem string_join_cons (a : String) (l : List String) :
    String.join (a :: l) = a ++ String.join l := by
  have key : ∀ (m : List String) (x : String),
      m.foldl (fun r s => r ++ s) x = x ++ m.foldl (fun r s => r ++ s) "" := by
    intro m
    induction m with
    | nil => intro x; exact (string_append_empty x).symm
    | cons s rest ih =>
      intro x
      show List.foldl (fun r t => r ++ t) (x ++ s) rest =
        x ++ List.foldl (fun r t => r ++ t) ("" ++ s) rest
      have hs : ("" : String) ++ s = s := by
        cases s with
        | mk data => rfl
      rw [hs, ih (x ++ s), ih s, String.append_assoc]
  show (a :: l).foldl (fun r s => r ++ s) "" = _
  show l.foldl (fun r s => r ++ s) ("" ++ a) = _
  have : ("" : String) ++ a = a := by
    cases a with
    | mk data => rfl
  rw [this, key l a]
  rfl

/-- Joining the strings made from a list of character lists is the
string made from their concatenation. -/
theorem string_join_asString (L : List (List Char)) :
    String.join (L.map List.asString) = List.asString L.flatten := by
  induction L with
  | nil => rfl
  | cons l rest ih =>
    rw [List.map_cons, string_join_cons, ih, List.flatten_cons]
    rfl

/-- Unfolding of the scan loop in terms of takeWhile and dropWhile: the
loop emits the pending token extended by the maximal run of class b and
then restarts on the remainder. -/
theorem tokenizeByGo_eq (cls : Char → Bool) :
    ∀ (l : List Char) (b : Bool) (acc : List Char),
      tokenizeByGo cls b acc l =
        (acc.reverse ++ l.takeWhile (fun x => cls x == b)) ::
          tokenizeBy cls (l.dropWhile (fun x => cls x == b)) := by
  intro l
  induction l with
  | nil =>
    intro b acc
    simp [tokenizeByGo, tokenizeBy]
  | cons c rest ih =>
    intro b acc
    cases hc : cls c == b with
    | true =>
      rw [tokenizeByGo, if_pos (by rw [hc]), ih b (c :: acc)]
      simp [List.takeWhile_cons, List.dropWhile_cons, hc]
    | false =>
      rw [tokenizeByGo, if_neg (by rw [hc]; exact Bool.false_ne_true)]
      simp only [List.takeWhile_cons, List.dropWhile_cons, hc,
        List.append_nil, if_neg Bool.false_ne_true]
      rfl

/-- The cons equation of the tokenizer: the first token is the head
character together with the maximal same-class run after it, and the
rest is the tokenization of the remainder. -/
theorem tokenizeBy_cons (cls : Char → Bool) (c : Char) (rest : List Char) :
    tokenizeBy cls (c :: rest) =
      (c :: rest.takeWhile (fun x => cls x == cls c)) ::
        tokenizeBy cls (rest.dropWhile (fun x => cls x == cls c)) := by
  show tokenizeByGo cls (cls c) [c] rest = _
  rw [tokenizeByGo_eq cls rest (cls c) [c]]
  rfl

/-- The head of a nonempty dropWhile result fails the predicate. -/
theorem dropWhile_head_false (p : Char → Bool) :
    ∀ (l : List Char) (c : Char) (m : List Char),
      l.dropWhile p = c :: m → p c = false := by
  intro l
  induction l with
  | nil =>
    intro c m h
    simp [List.dropWhile] at h
  | cons x xs ih =>
    intro c m h
    rw [List.dropWhile_cons] at h
    cases hx : p x with
    | true =>
      rw [if_pos (by rw [hx])] at h
      exact ih c m h
    | false =>
      rw [if_neg (by rw [hx]; exact Bool.false_ne_true)] at h
      cases h
      exact hx

/-- Dropping a prefix cannot lengthen a list. -/
theorem length_dropWhile_le (p : Char → Bool) (l : List Char) :
    (l.dropWhile p).length ≤ l.length :=
  (List.dropWhile_suffix p).sublist.length_le

/-- The tokens of tokenizeBy concatenate back to the input. -/
theorem tokenizeBy_flatten (cls : Char → Bool) (l : List Char) :
    (tokenizeBy cls l).flatten = l := by
  have aux : ∀ (n : Nat) (m : List Char), m.length ≤ n →
      (tokenizeBy cls m).flatten = m := by
    intro n
    induction n with
    | zero =>
      intro m hm
      have : m = [] := List.length_eq_zero.mp (Nat.le_zero.mp hm)
      subst this
      rfl
    | succ n ih =>
      intro m hm
      cases m with
      | nil => rfl
      | cons c rest =>
        rw [tokenizeBy_cons, List.flatten_cons]
        have hrest : rest.length ≤ n := by
          have := hm
          simp only [List.length_cons] at this
          omega
        rw [ih (rest.dropWhile fun x => cls x == cls c)
          (le_trans (length_dropWhile_le _ _) hrest)]
        rw [List.cons_append, List.takeWhile_append_dropWhile]
  exact aux l.length l (le_refl _)

/-- No token of tokenizeBy is empty. -/
theorem tokenizeBy_ne_nil (cls : Char → Bool) (l : List Char) :
    ∀ t ∈ tokenizeBy cls l, t ≠ [] := by
  have aux : ∀ (n : Nat) (m : List Char), m.length ≤ n →
      ∀ t ∈ tokenizeBy cls m, t ≠ [] := by
    intro n
    induction n with
    | zero =>
      intro m hm
      have : m = [] := List.length_eq_zero.mp (Nat.le_zero.mp hm)
      subst this
      intro t ht
      simp [tokenizeBy] at ht
    | succ n ih =>
      intro m hm
      cases m with
      | nil =>
        intro t ht
        simp [tokenizeBy] at ht
      | cons c rest =>
        rw [tokenizeBy_cons]
        intro t ht
        have hrest : rest.length ≤ n := by
          simp only [List.length_cons] at hm
          omega
        rcases List.mem_cons.mp ht with h | h
        · subst h
          exact List.cons_ne_nil _ _
        · exact ih (rest.dropWhile fun x => cls x == cls c)
            (le_trans (length_dropWhile_le _ _) hrest) t h
  exact aux l.length l (le_refl _)

/-- Every character of a token has the class of the token's head: the
split functions cut before the first rune whose class differs from the
first rune of the token. -/
theorem tokenizeBy_uniform (cls : Char → Bool) (l : List Char) :
    ∀ t ∈ tokenizeBy cls l, ∀ a ∈ t, cls a = cls t.headI := by
  have aux : ∀ (n : Nat) (m : List Char), m.length ≤ n →
      ∀ t ∈ tokenizeBy cls m, ∀ a ∈ t, cls a = cls t.headI := by
    intro n
    induction n with
    | zero =>
      intro m hm
      have : m = [] := List.length_eq_zero.mp (Nat.le_zero.mp hm)
      subst this
      intro t ht
      simp [tokenizeBy] at ht
    | succ n ih =>
      intro m hm
      cases m with
      | nil =>
        intro t ht
        simp [tokenizeBy] at ht
      | cons c rest =>
        rw [tokenizeBy_cons]
        intro t ht
        have hrest : rest.length ≤ n := by
          simp only [List.length_cons] at hm
          omega
        rcases List.mem_cons.mp ht with h | h
        · subst h
          intro a ha
          rcases List.mem_cons.mp ha with h1 | h1
          · subst h1
            rfl
          · have := List.mem_takeWhile_imp h1
            simp only [beq_iff_eq] at this
            simpa using this
        · exact ih (rest.dropWhile fun x => cls x == cls c)
            (le_trans (length_dropWhile_le _ _) hrest) t h
  exact aux l.length l (le_refl _)

/-- Adjacent tokens have different head classes: each token is a maximal
run, the boundary sits exactly where the class flips. -/
theorem tokenizeBy_chain (cls : Char → Bool) (l : List Char) :
    List.Chain' (fun t u => cls t.headI ≠ cls u.headI) (tokenizeBy cls l) := by
  have aux : ∀ (n : Nat) (m : List Char), m.length ≤ n →
      List.Chain' (fun t u => cls t.headI ≠ cls u.headI) (tokenizeBy cls m) := by
    intro n
    induction n with
    | zero =>
      intro m hm
      have : m = [] := List.length_eq_zero.mp (Nat.le_zero.mp hm)
      subst this
      exact List.chain'_nil
    | succ n ih =>
      intro m hm
      cases m with
      | nil => exact List.chain'_nil
      | cons c rest =>
        rw [tokenizeBy_cons]
        have hrest : rest.length ≤ n := by
          simp only [List.length_cons] at hm
          omega
        apply List.chain'_cons'.mpr
        constructor
        · intro u hu
          cases hdrop : rest.dropWhile (fun x => cls x == cls c) with
          | nil =>
            rw [hdrop] at hu
            simp [tokenizeBy] at hu
          | cons d m2 =>
            rw [hdrop, tokenizeBy_cons] at hu
            simp only [List.head?_cons, Option.mem_def, Option.some_inj] at hu
            subst hu
            have hd : (cls d == cls c) = false :=
              dropWhile_head_false _ rest d m2 hdrop
            simp only [List.headI]
            intro heq
            rw [heq] at hd
            simp at hd
        · exact ih (rest.dropWhile fun x => cls x == cls c)
            (le_trans (length_dropWhile_le _ _) hrest)
  exact aux l.length l (le_refl _)

/-- Rendering a token list against itself escapes every token and adds
no style markup. -/
theorem renderDiff_self (style : String) (esc : String → String)
    (A : List String) :
    renderDiff style esc A A = String.join (A.map esc) := by
  induction A with
  | nil => rfl
  | cons a as ih =>
    show (if a = a then esc a
      else "[" ++ style ++ "]" ++ esc a ++ "[-:-:-]") ++
        renderDiff style esc as as = _
    rw [if_pos rfl, ih, List.map_cons, string_join_cons]

/-- Diffing a token list against itself marks every token unchanged. -/
theorem diffMarks_self (A : List String) :
    diffMarks A A = List.replicate A.length false := by
  induction A with
  | nil => rfl
  | cons a as ih =>
    show (a != a) :: diffMarks as as = _
    rw [bne_self_eq_false, ih, List.length_cons, List.replicate_succ]

/-- A current token is marked unchanged exactly when the previous
sequence holds an equal token at the same position. -/
theorem diffMarks_unchanged_iff :
    ∀ (A B : List String) (i : Nat) (h : i < A.length),
      (diffMarks A B)[i]? = some false ↔ B[i]? = some (A[i]) := by
  intro A
  induction A with
  | nil =>
    intro B i h
    simp at h
  | cons a as ih =>
    intro B i h
    cases B with
    | nil =>
      cases i with
      | zero => simp [diffMarks]
      | succ j =>
        have hj : j < as.length := by simpa using h
        simpa [diffMarks] using ih [] j hj
    | cons b bs =>
      cases i with
      | zero =>
        simp only [diffMarks, List.getElem?_cons_zero, Option.some_inj,
          bne_eq_false_iff_eq, List.getElem_cons_zero]
        exact eq_comm
      | succ j =>
        have hj : j < as.length := by simpa using h
        simpa [diffMarks] using ih bs j hj


/-- Once the previous sequence is exhausted, every remaining current
token is marked changed. -/
theorem diffMarks_exhausted :
    ∀ (A B : List String) (i : Nat), i < A.length → B.length ≤ i →
      (diffMarks A B)[i]? = some true := by
  intro A
  induction A with
  | nil =>
    intro B i h hB
    simp at h
  | cons a as ih =>
    intro B i h hB
    cases B with
    | nil =>
      cases i with
      | zero => simp [diffMarks]
      | succ j =>
        have hj : j < as.length := by simpa using h
        simpa [diffMarks] using ih [] j hj (by simp)
    | cons b bs =>
      cases i with
      | zero => simp at hB
      | succ j =>
        have hj : j < as.length := by simpa using h
        have hBj : bs.length ≤ j := by simpa using hB
        simpa [diffMarks] using ih bs j hj hBj

/-- Mapping a ']'-free character list through the Char-mode token
builder and joining gives back the original text. -/
theorem join_singletons (l : List Char) (h : ']' ∉ l) :
    String.join (l.map (fun c => if c = ']' then "[]" else String.singleton c)) =
      List.asString l := by
  induction l with
  | nil => rfl
  | cons c rest ih =>
    rw [List.map_cons, string_join_cons,
      if_neg (fun hc => by subst hc; exact h (List.mem_cons_self _ _)),
      ih (fun hm => h (List.mem_cons_of_mem c hm))]
    rfl

/-! Claim theorems. -/

/-- Claim C1: the diff is strictly positional. A current token is marked
unchanged exactly when the previous sequence has a textually equal token
at the same position; once the previous sequence is exhausted every
remaining current token is marked changed; and for previous "abc" and
current "abd" in Char mode the render shows the first two tokens
unstyled and the third wrapped in the emphasis tag pair. -/
theorem diff_positional_contract :
    (∀ (A B : List String) (i : Nat) (h : i < A.length),
      (diffMarks A B)[i]? = some false ↔ B[i]? = some (A[i])) ∧
    (∀ (A B : List String) (i : Nat), i < A.length → B.length ≤ i →
      (diffMarks A B)[i]? = some true) ∧
    (∀ (style : String) (esc : String → String),
      (highlightContent .char style esc "abc" "abd").1 =
        esc "a" ++ esc "b" ++ ("[" ++ style ++ "]" ++ esc "d" ++ "[-:-:-]")) := by
  refine ⟨diffMarks_unchanged_iff, diffMarks_exhausted, ?_⟩
  intro style esc
  have htok1 : tokenize .char "abd" = ["a", "b", "d"] := by decide
  have htok2 : tokenize .char "abc" = ["a", "b", "c"] := by decide
  show (if HighlightMode.char = .off ∨ "abc" = "" then (esc "abd", "abd")
    else (renderDiff style esc (tokenize .char "abd") (tokenize .char "abc"),
      "abd")).1 = _
  rw [if_neg (by decide), htok1, htok2]
  show (if "a" = "a" then esc "a"
      else "[" ++ style ++ "]" ++ esc "a" ++ "[-:-:-]") ++
    ((if "b" = "b" then esc "b"
      else "[" ++ style ++ "]" ++ esc "b" ++ "[-:-:-]") ++
    ((if "d" = "c" then esc "d"
      else "[" ++ style ++ "]" ++ esc "d" ++ "[-:-:-]") ++ "")) = _
  rw [if_pos rfl, if_pos rfl, if_neg (by decide), string_append_empty]
  simp [String.append_assoc]

/-- Concrete instance of the positional contract: for current tokens
a, b, d against previous a, b, c the third token is changed and the
second unchanged. -/
theorem diff_positional_contract_witness :
    ((diffMarks ["a", "b", "d"] ["a", "b", "c"])[1]? = some false ↔
      (["a", "b", "c"] : List String)[1]? =
        some ((["a", "b", "d"] : List String)[1])) ∧
    (diffMarks ["x"] ([] : List String))[0]? = some true :=
  ⟨diff_positional_contract.1 ["a", "b", "d"] ["a", "b", "c"] 1 (by decide),
   diff_positional_contract.2.1 ["x"] [] 0 (by decide) (by decide)⟩

/-- Claim C2, corrected by char_lossless_counterexample: in Char mode
the token for a closing square bracket is the two-character escape, so
the concatenation of the Char-mode tokens of the one-character text
consisting of that bracket differs from the text. -/
theorem char_lossless_counterexample :
    String.join (tokenize .char "]") ≠ "]" ∧
    String.join (tokenize .char "]") = "[]" := by
  constructor
  · decide
  · decide

/-- Claim C2 (amended): the concatenation of the tokens equals the input
text for Word and Line mode on every input, and for Char mode on every
input free of closing square brackets; a Char-mode token for a closing
square bracket is emitted in escaped two-character form. -/
theorem tokenizer_lossless_amended (s : String) :
    String.join (tokenize .word s) = s ∧
    String.join (tokenize .line s) = s ∧
    (']' ∉ s.data → String.join (tokenize .char s) = s) := by
  refine ⟨?_, ?_, ?_⟩
  · show String.join (scanWords s) = s
    rw [scanWords, string_join_asString, tokenizeBy_flatten]
    obtain ⟨data⟩ := s
    rfl
  · show String.join (scanLines s) = s
    rw [scanLines, string_join_asString, tokenizeBy_flatten]
    obtain ⟨data⟩ := s
    rfl
  · intro h
    show String.join (scanRunes s) = s
    rw [scanRunes, join_singletons s.data h]
    obtain ⟨data⟩ := s
    rfl

/-- Concrete instance of the amended tokenizer losslessness: a text
without closing square brackets round-trips through Char mode. -/
theorem tokenizer_lossless_amended_witness :
    String.join (tokenize .char "ab") = "ab" :=
  (tokenizer_lossless_amended "ab").2.2 (by decide)

/-- Claim C3, corrected by this counterexample: in Line mode the newline
is a token of its own, so tokenizing the text with a letter, a newline
and a letter yields three tokens, not two. -/
theorem line_tokens_counterexample :
    tokenize .line "a\nb" = ["a", "\n", "b"] ∧
    tokenize .line "a\nb" ≠ ["a\n", "b"] := by
  constructor
  · decide
  · decide

/-- Claim C3 (amended): in Line mode each token is a maximal run of
consecutive newline characters or a maximal run of consecutive
non-newline characters, with a boundary exactly where the newline class
flips; a trailing run with no final newline is still emitted because
concatenation is lossless; empty input produces zero tokens; and the
text with a letter, a newline and a letter yields the three tokens
letter, newline, letter. -/
theorem line_tokens_amended :
    (∀ (s : String), ∀ t ∈ tokenizeBy (fun c => c == '\n') s.data,
      t ≠ [] ∧ ∀ a ∈ t, (a == '\n') = (t.headI == '\n')) ∧
    (∀ (s : String), List.Chain'
      (fun t u => (t.headI == '\n') ≠ (u.headI == '\n'))
      (tokenizeBy (fun c => c == '\n') s.data)) ∧
    (∀ (s : String), String.join (scanLines s) = s) ∧
    tokenize .line "" = [] ∧
    tokenize .line "a\nb" = ["a", "\n", "b"] := by
  refine ⟨?_, ?_, ?_, rfl, by decide⟩
  · intro s t ht
    exact ⟨tokenizeBy_ne_nil _ _ t ht, tokenizeBy_uniform _ _ t ht⟩
  · intro s
    exact tokenizeBy_chain _ _
  · intro s
    show String.join (scanLines s) = s
    rw [scanLines, string_join_asString, tokenizeBy_flatten]
    obtain ⟨data⟩ := s
    rfl

/-- Concrete instance of the amended Line-mode claim: the first token of
the three-character text is nonempty and uniformly non-newline. -/
theorem line_tokens_amended_witness :
    (['a'] : List Char) ≠ [] ∧
    ∀ a ∈ (['a'] : List Char), (a == '\n') = ((['a'] : List Char).headI == '\n') :=
  line_tokens_amended.1 "a\nb" ['a'] (by decide)

/-- Claim C4: applying the highlighter twice to the same text starting
from an empty cache yields the unstyled escape on the first call, the
cache becomes the text, and on the second call every token is marked
unchanged so the render is the concatenation of the escaped tokens with
no emphasis markup (and the plain escape when the diff is bypassed). -/
theorem highlight_twice_unchanged (mode : HighlightMode) (style : String)
    (esc : String → String) (text : String) :
    (highlightContent mode style esc "" text).1 = esc text ∧
    (highlightContent mode style esc "" text).2 = text ∧
    diffMarks (tokenize mode text) (tokenize mode text) =
      List.replicate (tokenize mode text).length false ∧
    (highlightContent mode style esc text text).1 =
      (if mode = .off ∨ text = "" then esc text
       else String.join ((tokenize mode text).map esc)) := by
  refine ⟨?_, ?_, diffMarks_self _, ?_⟩
  · simp [highlightContent]
  · simp [highlightContent]
  · by_cases h : mode = .off ∨ text = ""
    · simp only [highlightContent]
      rw [if_pos h, if_pos h]
    · simp only [highlightContent]
      rw [if_neg h, if_neg h, renderDiff_self]

/-- Claim C5: every call of the highlighter overwrites the cache with
the current run's raw output, in every mode and also when the diff is
bypassed. -/
theorem cache_always_overwritten (mode : HighlightMode) (style : String)
    (esc : String → String) (cache text : String) :
    (highlightContent mode style esc cache text).2 = text := by
  simp only [highlightContent]
  split
  · rfl
  · rfl

/-- Claim C6: while the pause flag holds, any number of consecutive
ticks leaves the loop state (cache, datetime, exit code) unchanged for
every possible runner, so the process runner is never invoked; after
resuming, a single tick invokes the runner exactly once, so dropped
ticks did not accumulate. -/
theorem pause_ticks_noop (errExit : Bool) (runner : LoopState → LoopState)
    (n : Nat) (s : LoopState) :
    tickLoop errExit true runner n s = s ∧
    (tickLoop errExit true runner n s).cache = s.cache ∧
    (tickLoop errExit true runner n s).datetime = s.datetime ∧
    (s.errCode = 0 → tickLoop errExit false runner 1 s = runner s) := by
  have key : ∀ (m : Nat) (t : LoopState), tickLoop errExit true runner m t = t := by
    intro m
    induction m with
    | zero => intro t; rfl
    | succ k ih =>
      intro t
      simp only [tickLoop]
      split
      · rfl
      · simpa using ih t
  refine ⟨key n s, by rw [key n s], by rw [key n s], ?_⟩
  intro h
  simp only [tickLoop]
  rw [if_neg (by rintro ⟨hne, h2⟩; exact hne h)]
  rfl

/-- Concrete instance of the resume behaviour: from a clean state one
unsuspended tick performs exactly one runner call. -/
theorem pause_ticks_noop_witness :
    tickLoop false false (fun t => t) 1 (LoopState.mk "out" "t0" 0) =
      (fun t => t) (LoopState.mk "out" "t0" 0) :=
  (pause_ticks_noop false (fun t => t) 3 (LoopState.mk "out" "t0" 0)).2.2.2 rfl

/-- Claim C7, corrected by this counterexample: after the errexit break
the exit footer owns focus and its input capture exits with the captured
command's code for every key, so pressing q there terminates with code 3
and not with 0. -/
theorem quit_after_errexit_counterexample :
    keyExitCode .exitFooter 3 'q' = some 3 ∧
    ¬ keyExitCode .exitFooter 3 'q' = some 0 := by
  constructor
  · rfl
  · decide

/-- Claim C7 (amended): a user quit from the content view exits with
code 0; once exit-on-error has triggered, any keypress (the q key
included) exits with the captured command's exit code, which the exec
embedding reports faithfully, and a launch failure is reported as exit
code 1; with exit-on-error set and a non-zero stored code the tick loop
stops performing work. -/
theorem exit_codes_amended :
    (∀ errCode : Int, keyExitCode .content errCode 'q' = some 0) ∧
    (∀ (errCode : Int) (key : Char), keyExitCode .exitFooter errCode key = some errCode) ∧
    execCode .launchFailure = 1 ∧
    (∀ code : Int, execCode (.exitStatus code) = code) ∧
    execCode .success = 0 ∧
    (∀ (suspend : Bool) (runner : LoopState → LoopState) (n : Nat) (s : LoopState),
      s.errCode ≠ 0 → tickLoop true suspend runner n s = s) := by
  refine ⟨fun _ => rfl, fun _ _ => rfl, rfl, fun _ => rfl, rfl, ?_⟩
  intro suspend runner n s h
  cases n with
  | zero => rfl
  | succ k =>
    simp only [tickLoop]
    rw [if_pos ⟨h, by trivial⟩]

/-- Concrete instance of the errexit stop: with a stored exit code of 3
the loop performs no further work. -/
theorem exit_codes_amended_witness :
    tickLoop true false (fun t => t) 5 (LoopState.mk "" "" 3) =
      LoopState.mk "" "" 3 :=
  exit_codes_amended.2.2.2.2.2 false (fun t => t) 5 (LoopState.mk "" "" 3)
    (by decide)

/-- Claim C8: in Word mode every token is a nonempty maximal run of
characters of one white-space class, adjacent tokens have opposite
classes, concatenation is lossless, and the text of two words separated
by three spaces yields exactly the word, the spaces and the word. -/
theorem word_tokens_maximal_runs :
    (∀ (s : String), ∀ t ∈ tokenizeBy goIsSpace s.data,
      t ≠ [] ∧ ∀ a ∈ t, goIsSpace a = goIsSpace t.headI) ∧
    (∀ (s : String), List.Chain'
      (fun t u => goIsSpace t.headI ≠ goIsSpace u.headI)
      (tokenizeBy goIsSpace s.data)) ∧
    (∀ (s : String), String.join (scanWords s) = s) ∧
    tokenize .word "foo   bar" = ["foo", "   ", "bar"] := by
  refine ⟨?_, ?_, ?_, by decide⟩
  · intro s t ht
    exact ⟨tokenizeBy_ne_nil _ _ t ht, tokenizeBy_uniform _ _ t ht⟩
  · intro s
    exact tokenizeBy_chain _ _
  · intro s
    show String.join (scanWords s) = s
    rw [scanWords, string_join_asString, tokenizeBy_flatten]
    obtain ⟨data⟩ := s
    rfl

/-- Concrete instance of the Word-mode claim: the first token of the
two-word text is nonempty and uniformly non-space. -/
theorem word_tokens_maximal_runs_witness :
    "foo".data ≠ [] ∧
    ∀ a ∈ "foo".data, goIsSpace a = goIsSpace "foo".data.headI :=
  word_tokens_maximal_runs.1 "foo   bar" "foo".data (by decide)

/-- Claim C9: the configuration clamp never lets the interval drop below
the floor: an interval below MinInterval is raised to exactly
MinInterval and an interval at or above it is left unchanged. -/
theorem interval_clamp_floor (interval : ℚ) :
    MinInterval ≤ clampInterval interval ∧
    (interval < MinInterval → clampInterval interval = MinInterval) ∧
    (MinInterval ≤ interval → clampInterval interval = interval) := by
  unfold clampInterval
  by_cases h : interval < MinInterval
  · rw [if_pos h]
    exact ⟨le_refl _, fun _ => rfl, fun h2 => absurd h (not_lt.mpr h2)⟩
  · rw [if_neg h]
    exact ⟨not_lt.mp h, fun h2 => absurd h2 h, fun _ => rfl⟩

/-- Concrete instances of the clamp: one twentieth of a second is raised
to the floor while two seconds pass through unchanged. -/
theorem interval_clamp_floor_witness :
    clampInterval (1 / 20) = MinInterval ∧ clampInterval 2 = 2 :=
  ⟨(interval_clamp_floor (1 / 20)).2.1 (by norm_num [MinInterval]),
   (interval_clamp_floor 2).2.2 (by norm_num [MinInterval])⟩

/-- Claim C10: a run with empty captured output empties the cache, so
the next call of the highlighter bypasses the diff and renders the new
output entirely unstyled, whatever mode, style and escape are active on
either call. -/
theorem empty_output_resets_cache (mode nextMode : HighlightMode)
    (style nextStyle : String) (esc nextEsc : String → String)
    (cache text : String) :
    (highlightContent mode style esc cache "").2 = "" ∧
    (highlightContent nextMode nextStyle nextEsc
        (highlightContent mode style esc cache "").2 text).1 = nextEsc text := by
  have h2 : (highlightContent mode style esc cache "").2 = "" := by
    simp only [highlightContent]
    split
    · rfl
    · rfl
  refine ⟨h2, ?_⟩
  rw [h2]
  simp [highlightContent]

end Gwatch
